import Mathlib

/-!
Verification of the er-hwinfo hardware-revision resolution core.

The definitions below are a shallow embedding of the C++ header
(namespace er::hwinfo): the version parser built on std::from_chars
(extract_revision_component, extract_revision), the revision resolver
(resolve_revision, whose selection phase over the ordered set of parsed
revisions is selectRev), and the top-level query function get.

Machine integers: the components are parsed into std::size_t; the
embedding models size_t as an unbounded Nat together with the explicit
range check that std::from_chars performs (it reports
result_out_of_range for a decimal numeral whose value exceeds the
size_t maximum, here size_bound - 1 with size_bound = 2 ^ 64 on the
64-bit target).
-/

namespace er
namespace hwinfo

/-- Semantic version, mirroring struct revision (major, minor, patch). -/
structure revision where
  major : Nat
  minor : Nat
  patch : Nat
deriving DecidableEq

/-- GPIO pin definition, mirroring struct pin. -/
structure pin where
  name : String
  number : Nat
  description : String
deriving DecidableEq

/-- Device identification, mirroring struct device. -/
structure device where
  hw_type : String
  hw_revision : revision
deriving DecidableEq

/-- Errors thrown by the core: a malformed version component (the
payload is the remaining input handed to extract_revision_component,
exactly the string_view that the thrown message prints), or the
internal-consistency violation of the canonical re-lookup. -/
inductive RErr where
  | malformed (component : List Char)
  | inconsistent (key : String)
deriving DecidableEq

/-- Decimal digit character for a value below ten (the formatter side
of fmt::format with the default integral presentation). -/
def digit_char (n : Nat) : Char :=
  match n with
  | 0 => '0' | 1 => '1' | 2 => '2' | 3 => '3' | 4 => '4'
  | 5 => '5' | 6 => '6' | 7 => '7' | 8 => '8' | _ => '9'

/-- Fuelled decimal rendering of a natural number (most significant
digit first); the fuel is only a termination device and is always
taken at least n + 1. -/
def natDigitsAux (fuel n : Nat) : List Char :=
  match fuel with
  | 0 => []
  | fuel + 1 =>
    if n < 10 then [digit_char n]
    else natDigitsAux fuel (n / 10) ++ [digit_char (n % 10)]

/-- Decimal rendering of a natural number, as fmt::format produces it. -/
def natDigits (n : Nat) : List Char := natDigitsAux (n + 1) n

/-- revision::as_string, i.e. fmt::format of major.minor.patch. -/
def revision.as_string (r : revision) : String :=
  ⟨natDigits r.major ++ '.' :: (natDigits r.minor ++ '.' :: natDigits r.patch)⟩

/-- Splits the input into its maximal leading run of decimal digits and
the rest; this is the character pattern std::from_chars consumes. -/
def digitSpan : List Char → List Char × List Char
  | [] => ([], [])
  | c :: cs =>
    if c.isDigit then
      let (ds, rest) := digitSpan cs
      (c :: ds, rest)
    else ([], c :: cs)

/-- Numeric value of a digit run, accumulated the way from_chars does. -/
def digitsVal (ds : List Char) : Nat :=
  ds.foldl (fun v c => 10 * v + (c.toNat - 48)) 0

/-- One past the largest value representable in std::size_t on the
64-bit target: from_chars reports result_out_of_range at this bound. -/
def size_bound : Nat := 2 ^ 64

/-- extract_revision_component: runs from_chars on the remaining input,
then performs the checks of the source verbatim: a failed conversion
(no digits, or value out of the size_t range) throws; a final component
must consume the whole input; a non-final component must be followed by
a literal dot, which is skipped.  When a non-final component consumes
the whole input the source dereferences the one-past-the-end pointer;
at every call site the underlying buffer is NUL-terminated, so that
read observes a byte that is not a dot and the call throws, which is
how this embedding renders that branch (see component_oob for the
instrumented bounds account). -/
def extract_revision_component (cs : List Char) (last_rev : Bool) :
    Except RErr (Nat × List Char) :=
  let ds := (digitSpan cs).1
  let rest := (digitSpan cs).2
  if ds = [] then .error (.malformed cs)
  else if size_bound ≤ digitsVal ds then .error (.malformed cs)
  else if last_rev then
    if rest = [] then .ok (digitsVal ds, rest) else .error (.malformed cs)
  else
    match rest with
    | '.' :: rest1 => .ok (digitsVal ds, rest1)
    | _ => .error (.malformed cs)

/-- extract_revision: three components, the first two followed by a dot,
the third consuming the remainder; a thrown error propagates. -/
def extract_revision (s : String) : Except RErr revision :=
  match extract_revision_component s.data false with
  | .error e => .error e
  | .ok (major, r1) =>
    match extract_revision_component r1 false with
    | .error e => .error e
    | .ok (minor, r2) =>
      match extract_revision_component r2 true with
      | .error e => .error e
      | .ok (patch, _) => .ok { major := major, minor := minor, patch := patch }

/-- Strict lexicographic order on revisions: the defaulted operator
spaceship of struct revision compares (major, minor, patch). -/
def rlt (a b : revision) : Prop :=
  a.major < b.major ∨
    (a.major = b.major ∧
      (a.minor < b.minor ∨ (a.minor = b.minor ∧ a.patch < b.patch)))

instance rlt.instDecidable (a b : revision) : Decidable (rlt a b) := by
  unfold rlt
  infer_instance

/-- Reflexive closure of rlt, the at-most order on revisions. -/
def rle (a b : revision) : Prop := rlt a b ∨ a = b

instance rle.instDecidable (a b : revision) : Decidable (rle a b) := by
  unfold rle
  infer_instance

/-- Ordered insertion keeping the list strictly increasing and dropping
duplicates: one std::set insert. -/
def insertRev (r : revision) : List revision → List revision
  | [] => [r]
  | x :: xs =>
    if rlt r x then r :: x :: xs
    else if rlt x r then x :: insertRev r xs
    else x :: xs

/-- The std::set of revisions built from the parsed keys: a strictly
increasing duplicate-free list. -/
def mkSet (l : List revision) : List revision :=
  l.foldl (fun s r => insertRev r s) []

/-- The selection phase of resolve_revision over the ordered set of
parsed candidate revisions: lower_bound on the requested revision
(dropWhile of the strictly-less elements), then either the forward
choice (lower-bound element equal to the request or sharing its major)
or the backward scan of the elements before the lower bound, in
decreasing order, for one with the requested major. -/
def selectRev (req : revision) (cands : List revision) : Option revision :=
  let s := mkSet cands
  match s.dropWhile (fun c => decide (rlt c req)) with
  | m :: _ =>
    if m ≠ req ∧ m.major ≠ req.major then
      (s.takeWhile (fun c => decide (rlt c req))).reverse.find?
        (fun c => c.major == req.major)
    else some m
  | [] =>
    (s.takeWhile (fun c => decide (rlt c req))).reverse.find?
      (fun c => c.major == req.major)

/-- Parses every version-string key of a type bucket, propagating the
first malformed key as an error: the transform-into-set construction of
resolve_revision evaluates extract_revision on each member name. -/
def parse_keys {α : Type} (bucket : List (String × α)) :
    Except RErr (List revision) :=
  match bucket with
  | [] => .ok []
  | kv :: rest =>
    match extract_revision kv.1 with
    | .error e => .error e
    | .ok r =>
      match parse_keys rest with
      | .error e => .error e
      | .ok rs => .ok (r :: rs)

/-- resolve_revision: parse all keys of the bucket, run the selection
phase, and on a selected revision re-locate the bucket member whose key
is its canonical major.minor.patch rendering; a missing canonical key
is the fatal inconsistency, no selected revision is the no-match
result (MemberEnd in the source, none here). -/
def resolve_revision {α : Type} (req : revision)
    (bucket : List (String × α)) : Except RErr (Option (String × α)) :=
  match parse_keys bucket with
  | .error e => .error e
  | .ok revs =>
    match selectRev req revs with
    | none => .ok none
    | some r =>
      match bucket.find? (fun kv => kv.1 == r.as_string) with
      | some entry => .ok (some entry)
      | none => .error (.inconsistent r.as_string)

/-- Pin payload of one database entry: the value and description
members of one pins object entry (shapes pre-validated by the JSON
schema collaborator). -/
structure pin_data where
  value : Nat
  description : String
deriving DecidableEq

/-- The pins mapping of one revision entry, in member order. -/
abbrev pins_map := List (String × pin_data)

/-- The hardware database: type name to bucket, a bucket being the
version-string-keyed list of revision entries, in member order. -/
abbrev hwdb_t := List (String × List (String × pins_map))

/-- Ordered-by-name insertion into the pin set (std::set with
pin_compare); an equal name keeps the already-stored pin. -/
def pin_insert (p : pin) : List pin → List pin
  | [] => [p]
  | q :: qs =>
    if p.name < q.name then p :: q :: qs
    else if q.name < p.name then q :: pin_insert p qs
    else q :: qs

/-- Builds the pin_set of get from the pins mapping of the selected
revision entry. -/
def mk_pin_set (pm : pins_map) : List pin :=
  pm.foldl
    (fun s kv =>
      pin_insert { name := kv.1, number := kv.2.value,
                   description := kv.2.description } s)
    []

/-- Complete hardware information result, mirroring struct info; the
pin set is the name-ordered list built by mk_pin_set. -/
structure info where
  dev : device
  pins : List pin
deriving DecidableEq

/-- get, from the point where the collaborators have delivered their
data: the device read from the device tree (none when any attribute is
missing or unreadable) and the schema-validated database document.  A
missing device is the absent result; a type missing from the database
or a resolution without a match is a present result with empty pins;
resolver errors propagate. -/
def get (device_opt : Option device) (hwdb : hwdb_t) :
    Except RErr (Option info) :=
  match device_opt with
  | none => .ok none
  | some dev =>
    match hwdb.find? (fun te => te.1 == dev.hw_type) with
    | none => .ok (some { dev := dev, pins := [] })
    | some te =>
      match resolve_revision dev.hw_revision te.2 with
      | .error e => .error e
      | .ok none => .ok (some { dev := dev, pins := [] })
      | .ok (some entry) =>
        .ok (some { dev := dev, pins := mk_pin_set entry.2 })

/-- A well-formed component in the sense of the parser: a non-empty
digit run whose value fits the size_t range. -/
def good_component (ds : List Char) : Prop :=
  ds ≠ [] ∧ (∀ c ∈ ds, c.isDigit = true) ∧ digitsVal ds < size_bound

/-- A string the parser accepts: exactly three dot-separated
well-formed components. -/
def well_formed (s : String) : Prop :=
  ∃ d1 d2 d3, s.data = d1 ++ '.' :: (d2 ++ '.' :: d3) ∧
    good_component d1 ∧ good_component d2 ∧ good_component d3

/-- Instrumented account of the separator check of one component call:
true exactly when the source evaluates the dereference of res.ptr with
res.ptr equal to the one-past-the-end pointer of the input, i.e. when
from_chars succeeded (digits present, value in range), the component is
non-final, and the digits consumed the whole remaining input. -/
def component_oob (cs : List Char) (last_rev : Bool) : Bool :=
  let ds := (digitSpan cs).1
  let rest := (digitSpan cs).2
  if ds = [] then false
  else if size_bound ≤ digitsVal ds then false
  else if last_rev then false
  else decide (rest = [])

/-- Whether parsing the string makes any component call read one past
the end of the input: the first component, or, when it succeeds, the
second; the final component never dereferences past the digits it
checked (its end-of-input test compares pointers only). -/
def extract_oob (s : String) : Bool :=
  component_oob s.data false ||
    (match extract_revision_component s.data false with
     | .ok (_, r1) => component_oob r1 false
     | .error _ => false)

/-- Whether an Except value is an error. -/
def is_error {ε α : Type} : Except ε α → Bool
  | .error _ => true
  | .ok _ => false

/-! ### Order lemmas for the revision order -/

theorem rlt_irrefl (a : revision) : ¬ rlt a a := by
  obtain ⟨x, y, z⟩ := a
  simp only [rlt]
  omega

theorem rlt_trans {a b c : revision} (h1 : rlt a b) (h2 : rlt b c) :
    rlt a c := by
  obtain ⟨x1, y1, z1⟩ := a
  obtain ⟨x2, y2, z2⟩ := b
  obtain ⟨x3, y3, z3⟩ := c
  simp only [rlt] at h1 h2 ⊢
  omega

theorem rlt_asymm {a b : revision} (h1 : rlt a b) (h2 : rlt b a) : False := by
  obtain ⟨x1, y1, z1⟩ := a
  obtain ⟨x2, y2, z2⟩ := b
  simp only [rlt] at h1 h2
  omega

theorem eq_of_not_rlt {a b : revision} (h1 : ¬ rlt a b) (h2 : ¬ rlt b a) :
    a = b := by
  obtain ⟨x1, y1, z1⟩ := a
  obtain ⟨x2, y2, z2⟩ := b
  simp only [rlt] at h1 h2
  simp only [revision.mk.injEq]
  omega

theorem not_rlt_iff_rle {a b : revision} : ¬ rlt a b ↔ rle b a := by
  constructor
  · intro h
    by_cases h2 : rlt b a
    · exact Or.inl h2
    · exact Or.inr (eq_of_not_rlt h2 h)
  · rintro (h | rfl)
    · intro h2
      exact rlt_asymm h h2
    · exact rlt_irrefl b

theorem rle_refl (a : revision) : rle a a := Or.inr rfl

theorem not_rlt_of_rle {a b : revision} (h : rle a b) : ¬ rlt b a :=
  not_rlt_iff_rle.mpr h

/-! ### Digit-span and digit-value lemmas -/

theorem digitsVal_snoc (ds : List Char) (c : Char) :
    digitsVal (ds ++ [c]) = 10 * digitsVal ds + (c.toNat - 48) := by
  unfold digitsVal
  rw [List.foldl_append]
  rfl

theorem digitSpan_sound :
    ∀ (cs ds rest : List Char), digitSpan cs = (ds, rest) →
      cs = ds ++ rest ∧ (∀ c ∈ ds, c.isDigit = true) ∧
        (∀ c cs1, rest = c :: cs1 → c.isDigit = false) := by
  intro cs
  induction cs with
  | nil =>
    intro ds rest h
    simp only [digitSpan, Prod.mk.injEq] at h
    obtain ⟨rfl, rfl⟩ := h
    simp
  | cons c cs ih =>
    intro ds rest h
    by_cases hd : c.isDigit
    · rcases hspan : digitSpan cs with ⟨ds1, rest1⟩
      rw [digitSpan, if_pos hd, hspan] at h
      simp only [Prod.mk.injEq] at h
      obtain ⟨rfl, rfl⟩ := h
      obtain ⟨hcs, hdig, hrest⟩ := ih ds1 rest1 hspan
      refine ⟨by simp [hcs], ?_, hrest⟩
      intro x hx
      rcases List.mem_cons.mp hx with rfl | hx
      · exact hd
      · exact hdig x hx
    · rw [digitSpan, if_neg hd] at h
      simp only [Prod.mk.injEq] at h
      obtain ⟨rfl, rfl⟩ := h
      refine ⟨by simp, by simp, ?_⟩
      intro x cs1 hx
      rw [List.cons.injEq] at hx
      rw [← hx.1]
      exact Bool.not_eq_true _ ▸ hd

theorem digitSpan_append :
    ∀ (ds rest : List Char), (∀ c ∈ ds, c.isDigit = true) →
      (∀ c cs1, rest = c :: cs1 → c.isDigit = false) →
      digitSpan (ds ++ rest) = (ds, rest) := by
  intro ds
  induction ds with
  | nil =>
    intro rest _ h2
    cases rest with
    | nil => rfl
    | cons c cs1 =>
      rw [List.nil_append, digitSpan, if_neg]
      rw [h2 c cs1 rfl]
      simp
  | cons d ds ih =>
    intro rest h1 h2
    have hd : d.isDigit = true := h1 d (List.mem_cons_self d ds)
    rw [List.cons_append, digitSpan, if_pos hd,
      ih rest (fun c hc => h1 c (List.mem_cons_of_mem d hc)) h2]

/-! ### Inversion of the component parser -/

theorem comp_ok_nonfinal {cs : List Char} {v : Nat} {rest1 : List Char} :
    extract_revision_component cs false = .ok (v, rest1) ↔
      ∃ ds, cs = ds ++ '.' :: rest1 ∧ ds ≠ [] ∧
        (∀ c ∈ ds, c.isDigit = true) ∧ digitsVal ds = v ∧ v < size_bound := by
  constructor
  · intro h
    rcases hspan : digitSpan cs with ⟨ds, rest⟩
    obtain ⟨hcs, hdig, hrest⟩ := digitSpan_sound cs ds rest hspan
    simp only [extract_revision_component, hspan] at h
    by_cases hds : ds = []
    · rw [if_pos hds] at h
      exact absurd h (by simp)
    rw [if_neg hds] at h
    by_cases hbound : size_bound ≤ digitsVal ds
    · rw [if_pos hbound] at h
      exact absurd h (by simp)
    rw [if_neg hbound, if_neg (by simp)] at h
    split at h
    · simp only [Except.ok.injEq, Prod.mk.injEq] at h
      obtain ⟨rfl, rfl⟩ := h
      exact ⟨ds, by rw [hcs], hds, hdig, rfl, by omega⟩
    · exact absurd h (by simp)
  · rintro ⟨ds, rfl, hds, hdig, rfl, hbound⟩
    simp only [extract_revision_component,
      digitSpan_append ds ('.' :: rest1) hdig
        (by intro c cs1 h; rw [List.cons.injEq] at h; rw [← h.1]; decide)]
    rw [if_neg hds, if_neg (by omega), if_neg (by simp)]

theorem comp_ok_final {cs : List Char} {v : Nat} {rest1 : List Char} :
    extract_revision_component cs true = .ok (v, rest1) ↔
      rest1 = [] ∧ cs ≠ [] ∧ (∀ c ∈ cs, c.isDigit = true) ∧
        digitsVal cs = v ∧ v < size_bound := by
  constructor
  · intro h
    rcases hspan : digitSpan cs with ⟨ds, rest⟩
    obtain ⟨hcs, hdig, hrest⟩ := digitSpan_sound cs ds rest hspan
    simp only [extract_revision_component, hspan] at h
    by_cases hds : ds = []
    · rw [if_pos hds] at h
      exact absurd h (by simp)
    rw [if_neg hds] at h
    by_cases hbound : size_bound ≤ digitsVal ds
    · rw [if_pos hbound] at h
      exact absurd h (by simp)
    rw [if_neg hbound, if_pos (by trivial)] at h
    by_cases hre : rest = []
    · rw [if_pos hre] at h
      simp only [Except.ok.injEq, Prod.mk.injEq] at h
      obtain ⟨rfl, rfl⟩ := h
      subst hre
      rw [List.append_nil] at hcs
      subst hcs
      exact ⟨rfl, hds, hdig, rfl, by omega⟩
    · rw [if_neg hre] at h
      exact absurd h (by simp)
  · rintro ⟨rfl, hcs, hdig, rfl, hbound⟩
    have hspan : digitSpan cs = (cs, []) := by
      have := digitSpan_append cs [] hdig (by intro c cs1 h; cases h)
      rwa [List.append_nil] at this
    simp only [extract_revision_component, hspan]
    rw [if_neg hcs, if_neg (by omega), if_pos (by trivial), if_pos (by trivial)]

theorem extract_ok_iff {s : String} {r : revision} :
    extract_revision s = .ok r ↔
      ∃ d1 d2 d3, s.data = d1 ++ '.' :: (d2 ++ '.' :: d3) ∧
        good_component d1 ∧ good_component d2 ∧ good_component d3 ∧
        r = ⟨digitsVal d1, digitsVal d2, digitsVal d3⟩ := by
  constructor
  · intro h
    rw [extract_revision] at h
    split at h
    · exact absurd h (by simp)
    rename_i v1 r1 h1
    split at h
    · exact absurd h (by simp)
    rename_i v2 r2 h2
    split at h
    · exact absurd h (by simp)
    rename_i v3 r3 h3
    rw [Except.ok.injEq] at h
    obtain ⟨d1, hs1, hd1, hdig1, hv1, hb1⟩ := comp_ok_nonfinal.mp h1
    obtain ⟨d2, hs2, hd2, hdig2, hv2, hb2⟩ := comp_ok_nonfinal.mp h2
    obtain ⟨hr3, hd3, hdig3, hv3, hb3⟩ := comp_ok_final.mp h3
    refine ⟨d1, d2, r2, by rw [hs1, hs2], ⟨hd1, hdig1, by omega⟩,
      ⟨hd2, hdig2, by omega⟩, ⟨hd3, hdig3, by omega⟩, ?_⟩
    rw [← h, hv1, hv2, hv3]
  · rintro ⟨d1, d2, d3, hs, ⟨hd1, hdig1, hb1⟩, ⟨hd2, hdig2, hb2⟩,
      ⟨hd3, hdig3, hb3⟩, rfl⟩
    have h1 : extract_revision_component s.data false =
        .ok (digitsVal d1, d2 ++ '.' :: d3) :=
      comp_ok_nonfinal.mpr ⟨d1, hs, hd1, hdig1, rfl, hb1⟩
    have h2 : extract_revision_component (d2 ++ '.' :: d3) false =
        .ok (digitsVal d2, d3) :=
      comp_ok_nonfinal.mpr ⟨d2, rfl, hd2, hdig2, rfl, hb2⟩
    have h3 : extract_revision_component d3 true = .ok (digitsVal d3, []) :=
      comp_ok_final.mpr ⟨rfl, hd3, hdig3, rfl, hb3⟩
    simp only [extract_revision, h1, h2, h3]

/-- The component parser only ever throws the malformed-component
error. -/
theorem comp_error_malformed {cs : List Char} {b : Bool} {e : RErr}
    (h : extract_revision_component cs b = .error e) :
    e = .malformed cs := by
  simp only [extract_revision_component] at h
  split at h
  · exact (Except.error.injEq .. ▸ h).symm
  · split at h
    · exact (Except.error.injEq .. ▸ h).symm
    · split at h
      · split at h
        · exact absurd h (by simp)
        · exact (Except.error.injEq .. ▸ h).symm
      · split at h
        · exact absurd h (by simp)
        · exact (Except.error.injEq .. ▸ h).symm

/-- The whole parser only ever throws malformed-component errors, and
the offending component is a suffix of the input. -/
theorem extract_error_malformed {s : String} {e : RErr}
    (h : extract_revision s = .error e) :
    ∃ cs, e = .malformed cs ∧ cs <:+ s.data := by
  rw [extract_revision] at h
  split at h
  · rename_i h1
    rw [Except.error.injEq] at h
    exact ⟨s.data, by rw [← h, comp_error_malformed h1], List.suffix_rfl⟩
  rename_i v1 r1 h1
  obtain ⟨d1, hs1, -, -, -, -⟩ := comp_ok_nonfinal.mp h1
  have hsuf1 : r1 <:+ s.data := ⟨d1 ++ ['.'], by simp [hs1]⟩
  split at h
  · rename_i h2
    rw [Except.error.injEq] at h
    exact ⟨r1, by rw [← h, comp_error_malformed h2], hsuf1⟩
  rename_i v2 r2 h2
  obtain ⟨d2, hs2, -, -, -, -⟩ := comp_ok_nonfinal.mp h2
  have hsuf2 : r2 <:+ s.data :=
    List.IsSuffix.trans ⟨d2 ++ ['.'], by simp [hs2]⟩ hsuf1
  split at h
  · rename_i h3
    rw [Except.error.injEq] at h
    exact ⟨r2, by rw [← h, comp_error_malformed h3], hsuf2⟩
  · exact absurd h (by simp)

/-- A successfully parsed revision has all components within the
size_t range. -/
theorem extract_ok_bounds {s : String} {r : revision}
    (h : extract_revision s = .ok r) :
    r.major < size_bound ∧ r.minor < size_bound ∧ r.patch < size_bound := by
  obtain ⟨d1, d2, d3, -, ⟨-, -, hb1⟩, ⟨-, -, hb2⟩, ⟨-, -, hb3⟩, rfl⟩ :=
    extract_ok_iff.mp h
  exact ⟨hb1, hb2, hb3⟩

/-! ### Decimal formatting and the canonical round trip -/

theorem digit_char_isDigit (n : Nat) : (digit_char n).isDigit = true := by
  unfold digit_char
  split <;> decide

theorem digit_char_toNat {n : Nat} (h : n < 10) :
    (digit_char n).toNat = 48 + n := by
  interval_cases n <;> decide

theorem natDigitsAux_spec :
    ∀ fuel n, n < fuel →
      natDigitsAux fuel n ≠ [] ∧
        (∀ c ∈ natDigitsAux fuel n, c.isDigit = true) ∧
        digitsVal (natDigitsAux fuel n) = n := by
  intro fuel
  induction fuel with
  | zero => intro n h; omega
  | succ fuel ih =>
    intro n h
    by_cases h10 : n < 10
    · rw [natDigitsAux, if_pos h10]
      refine ⟨by simp, by simp [digit_char_isDigit], ?_⟩
      show digitsVal ([] ++ [digit_char n]) = n
      rw [digitsVal_snoc, digit_char_toNat h10]
      simp [digitsVal]
    · rw [natDigitsAux, if_neg h10]
      have hdiv : n / 10 < fuel := by omega
      obtain ⟨hne, hdig, hval⟩ := ih (n / 10) hdiv
      refine ⟨by simp, ?_, ?_⟩
      · intro c hc
        rcases List.mem_append.mp hc with hc | hc
        · exact hdig c hc
        · rw [List.mem_singleton.mp hc]
          exact digit_char_isDigit _
      · rw [digitsVal_snoc, hval, digit_char_toNat (Nat.mod_lt n (by omega))]
        omega

theorem natDigits_spec (n : Nat) :
    natDigits n ≠ [] ∧ (∀ c ∈ natDigits n, c.isDigit = true) ∧
      digitsVal (natDigits n) = n :=
  natDigitsAux_spec (n + 1) n (by omega)

/-- Parsing the canonical rendering of an in-range revision returns the
revision itself. -/
theorem extract_as_string {r : revision} (h1 : r.major < size_bound)
    (h2 : r.minor < size_bound) (h3 : r.patch < size_bound) :
    extract_revision r.as_string = .ok r := by
  obtain ⟨hne1, hdig1, hval1⟩ := natDigits_spec r.major
  obtain ⟨hne2, hdig2, hval2⟩ := natDigits_spec r.minor
  obtain ⟨hne3, hdig3, hval3⟩ := natDigits_spec r.patch
  apply extract_ok_iff.mpr
  refine ⟨natDigits r.major, natDigits r.minor, natDigits r.patch, rfl,
    ⟨hne1, hdig1, by omega⟩, ⟨hne2, hdig2, by omega⟩,
    ⟨hne3, hdig3, by omega⟩, ?_⟩
  obtain ⟨x, y, z⟩ := r
  simp only [revision.mk.injEq]
  exact ⟨hval1.symm, hval2.symm, hval3.symm⟩

/-! ### The ordered set of candidate revisions -/

theorem mem_insertRev {x r : revision} :
    ∀ {s : List revision}, x ∈ insertRev r s ↔ x = r ∨ x ∈ s := by
  intro s
  induction s with
  | nil => simp [insertRev]
  | cons y ys ih =>
    rw [insertRev]
    by_cases h1 : rlt r y
    · rw [if_pos h1]
      simp
    rw [if_neg h1]
    by_cases h2 : rlt y r
    · rw [if_pos h2]
      simp only [List.mem_cons, ih]
      tauto
    · rw [if_neg h2]
      have : r = y := eq_of_not_rlt h1 h2
      subst this
      simp only [List.mem_cons]
      tauto

theorem pairwise_insertRev {r : revision} :
    ∀ {s : List revision}, List.Pairwise rlt s →
      List.Pairwise rlt (insertRev r s) := by
  intro s
  induction s with
  | nil => intro _; simp [insertRev]
  | cons y ys ih =>
    intro hs
    rw [List.pairwise_cons] at hs
    obtain ⟨hy, hys⟩ := hs
    rw [insertRev]
    by_cases h1 : rlt r y
    · rw [if_pos h1]
      refine List.Pairwise.cons ?_ (List.Pairwise.cons hy hys)
      intro z hz
      rcases List.mem_cons.mp hz with rfl | hz
      · exact h1
      · exact rlt_trans h1 (hy z hz)
    rw [if_neg h1]
    by_cases h2 : rlt y r
    · rw [if_pos h2]
      refine List.Pairwise.cons ?_ (ih hys)
      intro z hz
      rcases mem_insertRev.mp hz with rfl | hz
      · exact h2
      · exact hy z hz
    · rw [if_neg h2]
      exact List.Pairwise.cons hy hys

theorem mkSet_go_mem (l : List revision) :
    ∀ (acc : List revision) (x : revision),
      x ∈ l.foldl (fun s r => insertRev r s) acc ↔ x ∈ acc ∨ x ∈ l := by
  induction l with
  | nil => simp
  | cons r rs ih =>
    intro acc x
    rw [List.foldl_cons, ih, mem_insertRev]
    simp only [List.mem_cons]
    tauto

theorem mkSet_go_pairwise (l : List revision) :
    ∀ (acc : List revision), List.Pairwise rlt acc →
      List.Pairwise rlt (l.foldl (fun s r => insertRev r s) acc) := by
  induction l with
  | nil => intro acc h; exact h
  | cons r rs ih =>
    intro acc h
    exact ih (insertRev r acc) (pairwise_insertRev h)

theorem mkSet_mem {x : revision} {l : List revision} :
    x ∈ mkSet l ↔ x ∈ l := by
  rw [mkSet, mkSet_go_mem]
  simp

theorem mkSet_pairwise (l : List revision) : List.Pairwise rlt (mkSet l) :=
  mkSet_go_pairwise l [] (by simp)

/-! ### Generic list facts used by the selection phase -/

theorem dropWhile_head_false {α : Type} {p : α → Bool} :
    ∀ {l : List α} {x : α} {xs : List α},
      l.dropWhile p = x :: xs → p x = false := by
  intro l
  induction l with
  | nil => intro x xs h; cases h
  | cons c cs ih =>
    intro x xs h
    rw [List.dropWhile_cons] at h
    by_cases hc : p c
    · rw [if_pos hc] at h
      exact ih h
    · rw [if_neg hc] at h
      rw [List.cons.injEq] at h
      rw [← h.1]
      exact Bool.not_eq_true _ ▸ hc

theorem find?_middle {α : Type} {p : α → Bool} :
    ∀ (l1 : List α) (g : α) (l2 : List α), (∀ x ∈ l1, p x = false) →
      p g = true → (l1 ++ g :: l2).find? p = some g := by
  intro l1
  induction l1 with
  | nil =>
    intro g l2 _ hg
    rw [List.nil_append, List.find?_cons, hg]
  | cons a l1 ih =>
    intro g l2 h1 hg
    rw [List.cons_append, List.find?_cons, h1 a (List.mem_cons_self a l1)]
    exact ih g l2 (fun x hx => h1 x (List.mem_cons_of_mem a hx)) hg

/-! ### Properties of the selection phase -/

/-- Everything at or after the lower bound is at least the request. -/
theorem mem_dropWhile_not_rlt {req x : revision} {cands : List revision}
    (hx : x ∈ (mkSet cands).dropWhile (fun c => decide (rlt c req))) :
    ¬ rlt x req := by
  have hpw := mkSet_pairwise cands
  have hsplit := List.takeWhile_append_dropWhile
    (p := fun c => decide (rlt c req)) (l := mkSet cands)
  rcases ha : (mkSet cands).dropWhile (fun c => decide (rlt c req)) with
    _ | ⟨h0, t⟩
  · rw [ha] at hx
    cases hx
  · have hh0 : ¬ rlt h0 req := by
      have := dropWhile_head_false ha
      simpa using this
    rw [ha] at hx
    rcases List.mem_cons.mp hx with rfl | hx
    · exact hh0
    · have hpw2 : List.Pairwise rlt
          ((mkSet cands).takeWhile (fun c => decide (rlt c req)) ++
            (h0 :: t)) := by
        rw [← ha, hsplit]
        exact hpw
      have h0x : rlt h0 x :=
        (List.pairwise_cons.mp (List.pairwise_append.mp hpw2).2.1).1 x hx
      intro hxr
      exact hh0 (rlt_trans h0x hxr)

/-- Everything before the lower bound is strictly below the request. -/
theorem mem_takeWhile_rlt {req x : revision} {cands : List revision}
    (hx : x ∈ (mkSet cands).takeWhile (fun c => decide (rlt c req))) :
    rlt x req := by
  have := List.mem_takeWhile_imp hx
  simpa using this

theorem selectRev_eq_cons {req m : revision} {t cands : List revision}
    (ha : (mkSet cands).dropWhile (fun c => decide (rlt c req)) = m :: t) :
    selectRev req cands =
      if m ≠ req ∧ m.major ≠ req.major then
        ((mkSet cands).takeWhile (fun c => decide (rlt c req))).reverse.find?
          (fun c => c.major == req.major)
      else some m := by
  simp only [selectRev, ha]

theorem selectRev_eq_nil {req : revision} {cands : List revision}
    (ha : (mkSet cands).dropWhile (fun c => decide (rlt c req)) = []) :
    selectRev req cands =
      ((mkSet cands).takeWhile (fun c => decide (rlt c req))).reverse.find?
        (fun c => c.major == req.major) := by
  simp only [selectRev, ha]

/-- Forward selection: when the smallest candidate at least the request
exists and is the request itself or shares its major, the selection
phase picks it. -/
theorem select_forward (req m : revision) (cands : List revision)
    (hm : m ∈ cands) (hge : rle req m)
    (hmin : ∀ c ∈ cands, rle req c → rle m c)
    (hmaj : m = req ∨ m.major = req.major) :
    selectRev req cands = some m := by
  have hm_s : m ∈ mkSet cands := mkSet_mem.mpr hm
  have hsplit := List.takeWhile_append_dropWhile
    (p := fun c => decide (rlt c req)) (l := mkSet cands)
  have hm_not_b : m ∉ (mkSet cands).takeWhile (fun c => decide (rlt c req)) := by
    intro hmem
    exact not_rlt_of_rle hge (mem_takeWhile_rlt hmem)
  have hm_a : m ∈ (mkSet cands).dropWhile (fun c => decide (rlt c req)) := by
    rw [← hsplit] at hm_s
    rcases List.mem_append.mp hm_s with h | h
    · exact absurd h hm_not_b
    · exact h
  rcases ha : (mkSet cands).dropWhile (fun c => decide (rlt c req)) with
    _ | ⟨h0, t⟩
  · rw [ha] at hm_a
    cases hm_a
  · have hh0_a : h0 ∈ (mkSet cands).dropWhile (fun c => decide (rlt c req)) := by
      rw [ha]
      exact List.mem_cons_self h0 t
    have hh0_not : ¬ rlt h0 req := mem_dropWhile_not_rlt hh0_a
    have hh0_cands : h0 ∈ cands :=
      mkSet_mem.mp ((List.dropWhile_sublist _).subset hh0_a)
    have hge_h0 : rle req h0 := not_rlt_iff_rle.mp hh0_not
    have hmle : rle m h0 := hmin h0 hh0_cands hge_h0
    have heq : h0 = m := by
      rw [ha] at hm_a
      rcases List.mem_cons.mp hm_a with rfl | hm_t
      · rfl
      · have hpw2 : List.Pairwise rlt
            ((mkSet cands).takeWhile (fun c => decide (rlt c req)) ++
              (h0 :: t)) := by
          rw [← ha, hsplit]
          exact mkSet_pairwise cands
        have h0m : rlt h0 m :=
          (List.pairwise_cons.mp (List.pairwise_append.mp hpw2).2.1).1 m hm_t
        rcases hmle with hmlt | rfl
        · exact absurd hmlt (fun hc => rlt_asymm h0m hc)
        · exact absurd h0m (rlt_irrefl m)
    subst heq
    rw [selectRev_eq_cons ha, if_neg]
    rcases hmaj with rfl | hmaj
    · simp
    · simp [hmaj]

/-- Backward selection: when every candidate at least the request has a
different major, the selection phase picks the greatest candidate below
the request with the requested major. -/
theorem select_backward (req g : revision) (cands : List revision)
    (hfwd : ∀ c ∈ cands, rle req c → c.major ≠ req.major)
    (hg : g ∈ cands) (hglt : rlt g req) (hgmaj : g.major = req.major)
    (hgmax : ∀ c ∈ cands, rlt c req → c.major = req.major → rle c g) :
    selectRev req cands = some g := by
  have hsplit := List.takeWhile_append_dropWhile
    (p := fun c => decide (rlt c req)) (l := mkSet cands)
  have hg_s : g ∈ mkSet cands := mkSet_mem.mpr hg
  have hg_b : g ∈ (mkSet cands).takeWhile (fun c => decide (rlt c req)) := by
    rw [← hsplit] at hg_s
    rcases List.mem_append.mp hg_s with h | h
    · exact h
    · exact absurd hglt (mem_dropWhile_not_rlt h)
  have hfind : ((mkSet cands).takeWhile
      (fun c => decide (rlt c req))).reverse.find?
        (fun c => c.major == req.major) = some g := by
    obtain ⟨u, v, huv⟩ := List.append_of_mem hg_b
    have hpw_b : List.Pairwise rlt
        ((mkSet cands).takeWhile (fun c => decide (rlt c req))) := by
      have := mkSet_pairwise cands
      rw [← hsplit] at this
      exact (List.pairwise_append.mp this).1
    have hv : ∀ x ∈ v, rlt g x := by
      rw [huv] at hpw_b
      exact (List.pairwise_cons.mp (List.pairwise_append.mp hpw_b).2.1).1
    have hrev : ((mkSet cands).takeWhile
        (fun c => decide (rlt c req))).reverse = v.reverse ++ g :: u.reverse := by
      rw [huv, List.reverse_append, List.reverse_cons, List.append_assoc,
        List.singleton_append]
    rw [hrev]
    apply find?_middle
    · intro x hx
      have hxv : x ∈ v := List.mem_reverse.mp hx
      have hx_b : x ∈ (mkSet cands).takeWhile (fun c => decide (rlt c req)) := by
        rw [huv]
        exact List.mem_append_right u (List.mem_cons_of_mem g hxv)
      have hx_cands : x ∈ cands :=
        mkSet_mem.mp ((List.takeWhile_sublist _).subset hx_b)
      have hx_lt : rlt x req := mem_takeWhile_rlt hx_b
      by_cases hxm : x.major = req.major
      · rcases hgmax x hx_cands hx_lt hxm with hlt | rfl
        · exact absurd hlt (fun hc => rlt_asymm (hv x hxv) hc)
        · exact absurd (hv x hxv) (rlt_irrefl x)
      · simp [hxm]
    · simp [hgmaj]
  rcases ha : (mkSet cands).dropWhile (fun c => decide (rlt c req)) with
    _ | ⟨h0, t⟩
  · rw [selectRev_eq_nil ha]
    exact hfind
  · have hh0_a : h0 ∈ (mkSet cands).dropWhile (fun c => decide (rlt c req)) := by
      rw [ha]
      exact List.mem_cons_self h0 t
    have hh0_cands : h0 ∈ cands :=
      mkSet_mem.mp ((List.dropWhile_sublist _).subset hh0_a)
    have hge_h0 : rle req h0 := not_rlt_iff_rle.mp (mem_dropWhile_not_rlt hh0_a)
    have hh0_maj : h0.major ≠ req.major := hfwd h0 hh0_cands hge_h0
    have hh0_ne : h0 ≠ req := by
      intro heq
      rw [heq] at hh0_maj
      exact hh0_maj rfl
    rw [selectRev_eq_cons ha, if_pos ⟨hh0_ne, hh0_maj⟩]
    exact hfind

/-- Whatever the selection phase returns is a candidate with the
requested major component. -/
theorem selectRev_some_spec {req r : revision} {cands : List revision}
    (h : selectRev req cands = some r) : r ∈ cands ∧ r.major = req.major := by
  have hfind_spec : ∀ l : List revision,
      l.find? (fun c => c.major == req.major) = some r →
        r ∈ l ∧ r.major = req.major := by
    intro l hl
    refine ⟨List.mem_of_find?_eq_some hl, ?_⟩
    have := List.find?_some hl
    simpa using this
  rcases ha : (mkSet cands).dropWhile (fun c => decide (rlt c req)) with
    _ | ⟨m, t⟩
  · rw [selectRev_eq_nil ha] at h
    obtain ⟨hmem, hmaj⟩ := hfind_spec _ h
    have : r ∈ (mkSet cands).takeWhile (fun c => decide (rlt c req)) :=
      List.mem_reverse.mp hmem
    exact ⟨mkSet_mem.mp ((List.takeWhile_sublist _).subset this), hmaj⟩
  · rw [selectRev_eq_cons ha] at h
    by_cases hc : m ≠ req ∧ m.major ≠ req.major
    · rw [if_pos hc] at h
      obtain ⟨hmem, hmaj⟩ := hfind_spec _ h
      have : r ∈ (mkSet cands).takeWhile (fun c => decide (rlt c req)) :=
        List.mem_reverse.mp hmem
      exact ⟨mkSet_mem.mp ((List.takeWhile_sublist _).subset this), hmaj⟩
    · rw [if_neg hc] at h
      rw [Option.some.injEq] at h
      subst h
      have hr_a : m ∈ (mkSet cands).dropWhile (fun c => decide (rlt c req)) := by
        rw [ha]
        exact List.mem_cons_self m t
      have hr_cands : m ∈ cands :=
        mkSet_mem.mp ((List.dropWhile_sublist _).subset hr_a)
      refine ⟨hr_cands, ?_⟩
      rw [not_and_or] at hc
      rcases hc with hc | hc
      · rw [not_not.mp hc]
      · exact not_not.mp hc

/-- When no candidate shares the requested major the selection phase
finds nothing. -/
theorem selectRev_none_of_no_major {req : revision} {cands : List revision}
    (h : ∀ c ∈ cands, c.major ≠ req.major) : selectRev req cands = none := by
  rcases hsel : selectRev req cands with _ | r
  · rfl
  · obtain ⟨hmem, hmaj⟩ := selectRev_some_spec hsel
    exact absurd hmaj (h r hmem)

/-! ### Parsing the keys of a bucket -/

theorem parse_keys_error {α : Type} :
    ∀ {bucket : List (String × α)},
      (∃ kv ∈ bucket, ∃ e, extract_revision kv.1 = .error e) →
      ∃ cs, parse_keys bucket = .error (.malformed cs) ∧
        ∃ kv ∈ bucket, extract_revision kv.1 = .error (.malformed cs) := by
  intro bucket
  induction bucket with
  | nil => rintro ⟨kv, hkv, -⟩; cases hkv
  | cons kv rest ih =>
    rintro ⟨kv1, hkv1, e1, he1⟩
    rcases hk : extract_revision kv.1 with e | r
    · obtain ⟨cs, hcs, hsuf⟩ := extract_error_malformed hk
      subst hcs
      refine ⟨cs, ?_, kv, List.mem_cons_self kv rest, hk⟩
      rw [parse_keys, hk]
    · have hrest : ∃ kv ∈ rest, ∃ e, extract_revision kv.1 = .error e := by
        rcases List.mem_cons.mp hkv1 with rfl | hmem
        · rw [hk] at he1
          cases he1
        · exact ⟨kv1, hmem, e1, he1⟩
      obtain ⟨cs, hpk, kv2, hkv2, hk2⟩ := ih hrest
      refine ⟨cs, ?_, kv2, List.mem_cons_of_mem kv hkv2, hk2⟩
      rw [parse_keys, hk, hpk]

theorem parse_keys_ok_mem {α : Type} :
    ∀ {bucket : List (String × α)} {revs : List revision} {r : revision},
      parse_keys bucket = .ok revs → r ∈ revs →
      ∃ kv ∈ bucket, extract_revision kv.1 = .ok r := by
  intro bucket
  induction bucket with
  | nil =>
    intro revs r h hr
    rw [parse_keys, Except.ok.injEq] at h
    subst h
    cases hr
  | cons kv rest ih =>
    intro revs r h hr
    rw [parse_keys] at h
    rcases hk : extract_revision kv.1 with e | r0
    · rw [hk] at h
      cases h
    rw [hk] at h
    rcases hpk : parse_keys rest with e | rs
    · rw [hpk] at h
      cases h
    rw [hpk, Except.ok.injEq] at h
    subst h
    rcases List.mem_cons.mp hr with rfl | hmem
    · exact ⟨kv, List.mem_cons_self kv rest, hk⟩
    · obtain ⟨kv2, hkv2, hk2⟩ := ih hpk hmem
      exact ⟨kv2, List.mem_cons_of_mem kv hkv2, hk2⟩

/-- Success of the parser is exactly well-formedness of the input. -/
theorem extract_ok_exists_iff {s : String} :
    (∃ r, extract_revision s = .ok r) ↔ well_formed s := by
  constructor
  · rintro ⟨r, h⟩
    obtain ⟨d1, d2, d3, hs, g1, g2, g3, -⟩ := extract_ok_iff.mp h
    exact ⟨d1, d2, d3, hs, g1, g2, g3⟩
  · rintro ⟨d1, d2, d3, hs, g1, g2, g3⟩
    exact ⟨⟨digitsVal d1, digitsVal d2, digitsVal d3⟩,
      extract_ok_iff.mpr ⟨d1, d2, d3, hs, g1, g2, g3, rfl⟩⟩

/-! ### The claims -/

/-- Claim C1.  Forward and exact selection: whenever the smallest
candidate at least the requested revision exists (here given by its
membership and minimality hypotheses) and it equals the request or
shares its major component, the selection phase of resolve_revision
picks exactly that candidate; in particular a requested revision that
is itself a candidate is always selected. -/
theorem claim_forward_exact_selection :
    ∀ (req m : revision) (cands : List revision),
      (m ∈ cands ∧ rle req m ∧ (∀ c ∈ cands, rle req c → rle m c) ∧
          (m = req ∨ m.major = req.major) →
        selectRev req cands = some m) ∧
      (req ∈ cands → selectRev req cands = some req) := by
  intro req m cands
  constructor
  · rintro ⟨h1, h2, h3, h4⟩
    exact select_forward req m cands h1 h2 h3 h4
  · intro hreq
    exact select_forward req req cands hreq (rle_refl req)
      (fun c _ h => h) (Or.inl rfl)

/-- Witness for claim C1, the forward-match example of the spec:
resolving 1.5.0 against the candidates 1.2.0 and 1.8.0 picks 1.8.0. -/
theorem claim_forward_exact_selection_witness :
    selectRev ⟨1, 5, 0⟩ [⟨1, 2, 0⟩, ⟨1, 8, 0⟩] = some ⟨1, 8, 0⟩ :=
  (claim_forward_exact_selection ⟨1, 5, 0⟩ ⟨1, 8, 0⟩
    [⟨1, 2, 0⟩, ⟨1, 8, 0⟩]).1 ⟨by decide, by decide, by decide, by decide⟩

/-- Claim C2.  Backward search: when no candidate at least the request
shares its major component (equivalently, the lower bound is absent or
has a different major), the selection phase returns the greatest
same-major candidate strictly below the request, whenever one exists. -/
theorem claim_backward_search (req g : revision) (cands : List revision)
    (hfwd : ∀ c ∈ cands, rle req c → c.major ≠ req.major)
    (hg : g ∈ cands) (hglt : rlt g req) (hgmaj : g.major = req.major)
    (hgmax : ∀ c ∈ cands, rlt c req → c.major = req.major → rle c g) :
    selectRev req cands = some g :=
  select_backward req g cands hfwd hg hglt hgmaj hgmax

/-- Witness for claim C2, the backward-search example of the spec:
resolving 1.9.0 against 1.2.0, 1.5.0 and 2.0.0 picks the highest
same-major candidate 1.5.0, past the different-major lower bound. -/
theorem claim_backward_search_witness :
    selectRev ⟨1, 9, 0⟩ [⟨1, 2, 0⟩, ⟨1, 5, 0⟩, ⟨2, 0, 0⟩] = some ⟨1, 5, 0⟩ :=
  claim_backward_search ⟨1, 9, 0⟩ ⟨1, 5, 0⟩ [⟨1, 2, 0⟩, ⟨1, 5, 0⟩, ⟨2, 0, 0⟩]
    (by decide) (by decide) (by decide) (by decide) (by decide)

/-- Claim C3.  No compatible revision is a present, empty result: with
the device read, when its type is missing from the database, or the
bucket of its type is empty, or every (well-formed) candidate has a
different major component, get returns a present info value with empty
pins, neither an error nor the absent value. -/
theorem claim_no_match_present_empty (dev : device) (hwdb : hwdb_t)
    (h : hwdb.find? (fun te => te.1 == dev.hw_type) = none ∨
      ∃ te, hwdb.find? (fun te => te.1 == dev.hw_type) = some te ∧
        (te.2 = [] ∨ ∃ revs, parse_keys te.2 = .ok revs ∧
          ∀ r ∈ revs, r.major ≠ dev.hw_revision.major)) :
    get (some dev) hwdb = .ok (some { dev := dev, pins := [] }) := by
  rcases h with hfind | ⟨te, hfind, hcase⟩
  · rw [get, hfind]
  · rcases hcase with hte | ⟨revs, hpk, hmaj⟩
    · have hres : resolve_revision dev.hw_revision te.2 = .ok none := by
        rw [hte]
        rfl
      simp only [get, hfind, hres]
    · have hsel : selectRev dev.hw_revision revs = none :=
        selectRev_none_of_no_major hmaj
      have hres : resolve_revision dev.hw_revision te.2 = .ok none := by
        simp only [resolve_revision, hpk, hsel]
      simp only [get, hfind, hres]

/-- Witness for claim C3: a device at revision 3.0.0 whose type bucket
only holds 1.0.0 gets a present result with empty pins. -/
theorem claim_no_match_present_empty_witness :
    get (some ⟨"mrcm", ⟨3, 0, 0⟩⟩) [("mrcm", [("1.0.0", [])])] =
      .ok (some { dev := ⟨"mrcm", ⟨3, 0, 0⟩⟩, pins := [] }) :=
  claim_no_match_present_empty ⟨"mrcm", ⟨3, 0, 0⟩⟩
    [("mrcm", [("1.0.0", [])])]
    (Or.inr ⟨("mrcm", [("1.0.0", [])]), rfl,
      Or.inr ⟨[⟨1, 0, 0⟩], rfl, by decide⟩⟩)

/-- Claim C4.  Malformed keys are fatal: whenever any key of the
queried bucket fails to parse, resolve_revision propagates a
malformed-component error whose payload is the unparsed part of some
failing key, instead of returning a selection or a no-match value —
however well another key would have matched. -/
theorem claim_malformed_key_fatal {α : Type} (req : revision)
    (bucket : List (String × α))
    (h : ∃ kv ∈ bucket, ∃ e, extract_revision kv.1 = .error e) :
    ∃ cs, resolve_revision req bucket = .error (.malformed cs) ∧
      ∃ kv ∈ bucket, extract_revision kv.1 = .error (.malformed cs) := by
  obtain ⟨cs, hpk, w⟩ := parse_keys_error h
  exact ⟨cs, by rw [resolve_revision, hpk], w⟩

/-- Witness for claim C4: a bucket holding the exactly-matching key
1.0.0 next to a malformed key still fails as a whole. -/
theorem claim_malformed_key_fatal_witness :
    ∃ cs, resolve_revision ⟨1, 0, 0⟩
        [("1.0.0", (0 : Nat)), ("garbage", 0)] = .error (.malformed cs) ∧
      ∃ kv ∈ [("1.0.0", (0 : Nat)), ("garbage", 0)],
        extract_revision kv.1 = .error (.malformed cs) :=
  claim_malformed_key_fatal ⟨1, 0, 0⟩ [("1.0.0", (0 : Nat)), ("garbage", 0)]
    ⟨("garbage", 0), by decide, RErr.malformed "garbage".data, rfl⟩

/-- Claim C5.  A failing canonical re-lookup is fatal: when the
selection phase picked a revision but no bucket key equals its
canonical major.minor.patch rendering, resolve_revision throws the
internal-consistency error rather than returning any value. -/
theorem claim_inconsistent_lookup_fatal {α : Type} (req r : revision)
    (bucket : List (String × α)) (revs : List revision)
    (hpk : parse_keys bucket = .ok revs)
    (hsel : selectRev req revs = some r)
    (habs : ∀ kv ∈ bucket, kv.1 ≠ r.as_string) :
    resolve_revision req bucket = .error (.inconsistent r.as_string) := by
  have hfind : bucket.find? (fun kv => kv.1 == r.as_string) = none := by
    apply List.find?_eq_none.mpr
    intro kv hkv
    simp [habs kv hkv]
  simp only [resolve_revision, hpk, hsel, hfind]

/-- Witness for claim C5: the only key 1.08.0 parses to 1.8.0, whose
canonical rendering 1.8.0 is not a key, so resolution throws. -/
theorem claim_inconsistent_lookup_fatal_witness :
    resolve_revision ⟨1, 8, 0⟩ [("1.08.0", (0 : Nat))] =
      .error (.inconsistent (revision.as_string ⟨1, 8, 0⟩)) :=
  claim_inconsistent_lookup_fatal ⟨1, 8, 0⟩ ⟨1, 8, 0⟩ [("1.08.0", (0 : Nat))]
    [⟨1, 8, 0⟩] rfl rfl (by decide)

/-- Claim C6.  The parser rejects exactly the inputs that are not three
dot-separated components each a non-empty digit run convertible by
from_chars (well_formed), and in particular rejects the eight concrete
strings of the spec. -/
theorem claim_parser_rejections :
    (∀ s : String, (∃ e, extract_revision s = .error e) ↔ ¬ well_formed s) ∧
    is_error (extract_revision "") = true ∧
    is_error (extract_revision "1") = true ∧
    is_error (extract_revision "1.2") = true ∧
    is_error (extract_revision "1-2.3") = true ∧
    is_error (extract_revision "1.2-3") = true ∧
    is_error (extract_revision "a.2.3") = true ∧
    is_error (extract_revision "1.b.3") = true ∧
    is_error (extract_revision "1.2.c") = true := by
  refine ⟨?_, rfl, rfl, rfl, rfl, rfl, rfl, rfl, rfl⟩
  intro s
  rcases hx : extract_revision s with e | r
  · constructor
    · intro _ hwf
      obtain ⟨r, hok⟩ := extract_ok_exists_iff.mpr hwf
      rw [hx] at hok
      cases hok
    · intro _
      exact ⟨e, rfl⟩
  · constructor
    · rintro ⟨e, he⟩
      exact absurd he (by simp)
    · intro hnwf
      exact absurd (extract_ok_exists_iff.mp ⟨r, hx⟩) hnwf

/-- Witness for claim C6: the rejection of the string 1 is the
rejection of an input that is not well-formed. -/
theorem claim_parser_rejections_witness : ¬ well_formed "1" :=
  (claim_parser_rejections.1 "1").mp ⟨RErr.malformed "1".data, rfl⟩

/-- Claim C7.  Parse-then-format round trip: for the canonical
rendering of any components within the size_t range, parsing and then
formatting returns the identical string. -/
theorem claim_parse_format_round_trip (a b c : Nat)
    (ha : a < size_bound) (hb : b < size_bound) (hc : c < size_bound) :
    Except.map revision.as_string
        (extract_revision (revision.as_string ⟨a, b, c⟩)) =
      .ok (revision.as_string ⟨a, b, c⟩) := by
  rw [extract_as_string ha hb hc]
  rfl

/-- Witness for claim C7 at the components 1, 2, 3. -/
theorem claim_parse_format_round_trip_witness :
    Except.map revision.as_string
        (extract_revision (revision.as_string ⟨1, 2, 3⟩)) =
      .ok (revision.as_string ⟨1, 2, 3⟩) :=
  claim_parse_format_round_trip 1 2 3 (by decide) (by decide) (by decide)

/-- Claim C8, counterexample to the claim as stated: the input built of
three dot-separated digit runs whose first component is 2 to the 64,
one past the size_t maximum, is rejected by the parser, so components
of arbitrary magnitude are not accepted. -/
theorem claim_unbounded_parser_counterexample :
    ("18446744073709551616.0.0" : String).data =
        "18446744073709551616".data ++ '.' :: ("0".data ++ '.' :: "0".data) ∧
      ("18446744073709551616".data ≠ [] ∧
        ∀ c ∈ "18446744073709551616".data, c.isDigit = true) ∧
      is_error (extract_revision "18446744073709551616.0.0") = true :=
  ⟨by decide, ⟨by decide, by decide⟩, rfl⟩

/-- Claim C8 as amended: the parser accepts three dot-separated digit
runs of any magnitude up to the size_t maximum, preserving the exact
component values (no clamping, values beyond 32 bits included), and
rejects an input whose first component reaches 2 to the 64. -/
theorem claim_bounded_components :
    (∀ d1 d2 d3 : List Char, good_component d1 → good_component d2 →
        good_component d3 →
        extract_revision ⟨d1 ++ '.' :: (d2 ++ '.' :: d3)⟩ =
          .ok ⟨digitsVal d1, digitsVal d2, digitsVal d3⟩) ∧
    (∀ d1 d2 d3 : List Char, d1 ≠ [] → (∀ c ∈ d1, c.isDigit = true) →
        size_bound ≤ digitsVal d1 →
        is_error (extract_revision ⟨d1 ++ '.' :: (d2 ++ '.' :: d3)⟩) = true) := by
  constructor
  · intro d1 d2 d3 g1 g2 g3
    exact extract_ok_iff.mpr ⟨d1, d2, d3, rfl, g1, g2, g3, rfl⟩
  · intro d1 d2 d3 hne hdig hbound
    have hspan : digitSpan (d1 ++ '.' :: (d2 ++ '.' :: d3)) =
        (d1, '.' :: (d2 ++ '.' :: d3)) :=
      digitSpan_append d1 _ hdig
        (by intro c cs1 h; rw [List.cons.injEq] at h; rw [← h.1]; decide)
    have hcomp : extract_revision_component
        ((⟨d1 ++ '.' :: (d2 ++ '.' :: d3)⟩ : String).data) false =
          .error (.malformed (d1 ++ '.' :: (d2 ++ '.' :: d3))) := by
      show extract_revision_component (d1 ++ '.' :: (d2 ++ '.' :: d3)) false = _
      simp only [extract_revision_component, hspan]
      rw [if_neg hne, if_pos hbound]
    rw [extract_revision, hcomp]
    rfl

/-- Witness for the amended claim C8: the component 2 to the 40, well
beyond the 32-bit range, is parsed exactly. -/
theorem claim_bounded_components_witness :
    extract_revision "1099511627776.0.0" = .ok ⟨1099511627776, 0, 0⟩ := by
  have h := claim_bounded_components.1 "1099511627776".data "0".data "0".data
    ⟨by decide, by decide, by decide⟩ ⟨by decide, by decide, by decide⟩
    ⟨by decide, by decide, by decide⟩
  exact h

/-- Claim C9.  Same-major invariant: whenever resolve_revision returns
a selected entry, the version parsed back from the entry key has the
requested major component. -/
theorem claim_selected_same_major {α : Type} (req : revision)
    (bucket : List (String × α)) (entry : String × α)
    (h : resolve_revision req bucket = .ok (some entry)) :
    ∃ r, extract_revision entry.1 = .ok r ∧ r.major = req.major := by
  rw [resolve_revision] at h
  split at h
  · exact absurd h (by simp)
  rename_i revs hpk
  split at h
  · exact absurd h (by simp)
  rename_i r hsel
  split at h
  · rename_i entry1 hfind
    rw [Except.ok.injEq, Option.some.injEq] at h
    subst h
    have hkey : entry1.1 = r.as_string := by
      have := List.find?_some hfind
      simpa using this
    obtain ⟨hmem, hmaj⟩ := selectRev_some_spec hsel
    obtain ⟨kv, hkv, hok⟩ := parse_keys_ok_mem hpk hmem
    obtain ⟨hb1, hb2, hb3⟩ := extract_ok_bounds hok
    exact ⟨r, by rw [hkey]; exact extract_as_string hb1 hb2 hb3, hmaj⟩
  · exact absurd h (by simp)

/-- Witness for claim C9 on a one-entry bucket resolved exactly. -/
theorem claim_selected_same_major_witness :
    ∃ r, extract_revision ("1.0.0", (0 : Nat)).1 = .ok r ∧
      r.major = (⟨1, 0, 0⟩ : revision).major :=
  claim_selected_same_major ⟨1, 0, 0⟩ [("1.0.0", (0 : Nat))]
    ("1.0.0", 0) rfl

/-- Claim C10.  The separator check of a non-final component call
dereferences the position one past the last character whenever the
digits consume the whole remaining input: the inputs 1 and 1.2 make
the parser read one past the end of its input (the reads succeed at the
existing call sites only because the buffers are NUL-terminated), and
both inputs are then rejected. -/
theorem claim_reads_past_end :
    extract_oob "1" = true ∧ extract_oob "1.2" = true ∧
      is_error (extract_revision "1") = true ∧
      is_error (extract_revision "1.2") = true :=
  ⟨rfl, rfl, rfl, rfl⟩

end hwinfo
end er
